import Mathlib

/-!
Verification of powerball_auto_analysis.py (schema normalizer, frequency
analyzer and weighted sampler) against its natural-language specification.

The embedding is a shallow model of the pandas/python code:
a table is a list of named columns, each column a list of cells; pandas
string operations are modelled character-by-character; fallible operations
(astype(int), schema detection) return Except values.
-/

namespace Powerball

/-- A cell of a raw table: a string, an integer, or missing (NaN/None). -/
inductive Cell where
  | str (s : String)
  | int (n : Int)
  | na
deriving DecidableEq, Repr

/-- A table, column-major: orderly list of (column name, column values). -/
structure Table where
  cols : List (String × List Cell)
deriving DecidableEq, Repr

/-- Column labels in table order (pandas df.columns). -/
def Table.colNames (t : Table) : List String := t.cols.map Prod.fst

/-- Number of rows: the length of the first column (0 for an empty table).
Well-formed tables have all columns of this common length. -/
def Table.nRows (t : Table) : Nat :=
  match t.cols with
  | [] => 0
  | c :: _ => c.2.length

/-- Well-formedness: every column has the same length. -/
def Table.WF (t : Table) : Prop :=
  ∀ p ∈ t.cols, p.2.length = t.nRows

instance (t : Table) : Decidable t.WF := by
  unfold Table.WF
  infer_instance

/-- Python str(x) as applied by pandas astype(str):
strings unchanged, integers printed, missing cells become "nan". -/
def cellStr : Cell → String
  | .str s => s
  | .int n => toString n
  | .na => "nan"

/-- Whether a cell is missing (dropped by pandas dropna). -/
def Cell.isNa : Cell → Bool
  | .na => true
  | _ => false

/-- Whether a cell holds an integer. -/
def Cell.isInt : Cell → Bool
  | .int _ => true
  | _ => false

/-- Whether a fallible result succeeded. -/
def isOkE {ε α : Type} : Except ε α → Bool
  | .ok _ => true
  | .error _ => false

/-- Python str.lower() on ASCII column names. -/
def lowerStr (s : String) : String := String.mk (s.toList.map Char.toLower)

/-- Replace every occurrence of one character by another
(str.replace with single-character arguments). -/
def replaceChar (c d : Char) (s : String) : String :=
  String.mk (s.toList.map (fun x => if x = c then d else x))

/-- Python str.strip(): remove whitespace from both ends. -/
def pyStrip (s : String) : String :=
  String.mk (((s.toList.dropWhile Char.isWhitespace).reverse.dropWhile Char.isWhitespace).reverse)

/-- Split a character list at a separator character, keeping empty pieces
(pandas str.split(' ')). -/
def splitOnCharAux (sep : Char) : List Char → List (List Char)
  | [] => [[]]
  | c :: cs =>
    match splitOnCharAux sep cs with
    | [] => [[]]
    | p :: ps => if c = sep then [] :: p :: ps else (c :: p) :: ps

/-- pandas Series.str.split(' '): split on single spaces, empties kept. -/
def splitOnSpace (s : String) : List String :=
  (splitOnCharAux ' ' s.toList).map String.mk

/-- Split a character list at whitespace characters. -/
def splitWsAux : List Char → List (List Char)
  | [] => [[]]
  | c :: cs =>
    match splitWsAux cs with
    | [] => [[]]
    | p :: ps => if c.isWhitespace then [] :: p :: ps else (c :: p) :: ps

/-- One step of collapsing whitespace runs: `inWs` records whether the
previous character was whitespace. Models the regex substitution \s+ -> " ". -/
def collapseWsAux : List Char → Bool → List Char
  | [], _ => []
  | c :: cs, inWs =>
    if c.isWhitespace then
      if inWs then collapseWsAux cs true
      else ' ' :: collapseWsAux cs true
    else c :: collapseWsAux cs false

/-- pandas .str.replace(r'\s+', ' ', regex=True): every maximal run of
whitespace becomes a single space. -/
def collapseWs (s : String) : String := String.mk (collapseWsAux s.toList false)

/-- Python str.split() with no separator: split on whitespace runs,
discarding empty pieces. -/
def pySplitWs (s : String) : List String :=
  ((splitWsAux s.toList).map String.mk).filter (fun p => p ≠ "")

/-- Python str.lstrip('0'): drop leading zero characters. -/
def lstripZeros (s : String) : String :=
  String.mk (s.toList.dropWhile (fun c => c = '0'))

/-- Python str.isdigit() restricted to ASCII: nonempty and all digits. -/
def pyIsDigit (s : String) : Bool :=
  s ≠ "" && s.toList.all Char.isDigit

/-- Python int(s) as used by pandas astype(int) on object columns:
strip whitespace, optional sign, then a nonempty digit string. -/
def parseIntPy (s : String) : Option Int :=
  let t := pyStrip s
  match t.toList with
  | '-' :: ds => if ds ≠ [] ∧ ds.all Char.isDigit then some (-(Int.ofNat (digitsVal ds))) else none
  | '+' :: ds => if ds ≠ [] ∧ ds.all Char.isDigit then some (Int.ofNat (digitsVal ds)) else none
  | ds => if ds ≠ [] ∧ ds.all Char.isDigit then some (Int.ofNat (digitsVal ds)) else none
where
  /-- Numeric value of a digit list. -/
  digitsVal (ds : List Char) : Nat :=
    ds.foldl (fun acc c => acc * 10 + (c.toNat - '0'.toNat)) 0

/-- Errors of the normalizer: the python code raises ValueError; the spec
groups them as SchemaError. -/
inductive SchemaError where
  | noColumn (available : List String)
  | cannotSplit (col : String) (samples : List String)
  | badInt (offending : String)
deriving DecidableEq, Repr

/-! ## Schema normalizer: _detect_and_split_winning_numbers -/

/-- cols_lower = [c.lower() for c in df.columns]. -/
def colsLower (t : Table) : List String := t.colNames.map lowerStr

/-- col_map = \x7bc.lower(): c for c in df.columns\x7d: a later column with the
same lowercase name overwrites an earlier one, so lookup returns the last
original name whose lowercasing equals the key. -/
def colMapLookup (t : Table) (key : String) : Option String :=
  (t.colNames.filter (fun c => lowerStr c = key)).getLast?

/-- required = ["white1",...,"white5","powerball"]. -/
def requiredCols : List String :=
  ["white1", "white2", "white3", "white4", "white5", "powerball"]

/-- Case A test: all(name in cols_lower for name in required). -/
def caseACond (t : Table) : Bool :=
  requiredCols.all (fun name => (colsLower t).contains name)

/-- Case A rename: each original column that is the col_map image of a
required lowercase name is renamed to that lowercase name; values kept. -/
def caseARename (t : Table) : Table :=
  ⟨t.cols.map (fun p =>
    (if requiredCols.contains (lowerStr p.1) ∧ colMapLookup t (lowerStr p.1) = some p.1
     then lowerStr p.1 else p.1, p.2))⟩

/-- pandas Series.astype(int) on one cell: integers kept, strings parsed
with python int(), missing values fail. -/
def astypeIntCell : Cell → Except SchemaError Int
  | .int n => .ok n
  | .str s =>
    match parseIntPy s with
    | some n => .ok n
    | none => .error (.badInt s)
  | .na => .error (.badInt "nan")

/-- Effect of df[name] = df[name].astype(int) on a single column entry:
a column with the selected label has every cell converted, others pass. -/
def convertColEntry (name : String) (p : String × List Cell) :
    Except SchemaError (String × List Cell) :=
  if p.1 = name then do
    let ns ← p.2.mapM astypeIntCell
    pure (p.1, ns.map Cell.int)
  else
    pure p

/-- df[name] = df[name].astype(int): convert every column labelled name;
the first failing cell aborts the whole call. -/
def convertColInt (name : String) (t : Table) : Except SchemaError Table := do
  let cols ← t.cols.mapM (convertColEntry name)
  pure ⟨cols⟩

/-- for name in required: df[name] = df[name].astype(int). -/
def convertReq : List String → Table → Except SchemaError Table
  | [], t => .ok t
  | n :: ns, t => do convertReq ns (← convertColInt n t)

/-- single_col_candidates from the source. -/
def singleColCandidates : List String :=
  ["winning_numbers", "winning numbers", "winningnumbers", "winning number",
   "winning_number", "numbers", "winning_numbers_with_powerball", "drawn_numbers"]

/-- Case B: first candidate alias present in cols_lower, mapped back through
col_map to the original column name. -/
def aliasMatch (t : Table) : Option String :=
  match singleColCandidates.find? (fun cand => (colsLower t).contains cand) with
  | some cand => colMapLookup t cand
  | none => none

/-- One row of the heuristic: strip, commas to spaces, split on whitespace,
keep nonempty parts; the row looks like a draw when at least 6 parts result
and the first 6 survive lstrip('0').isdigit(). -/
def looksLikeRow (s : String) : Bool :=
  let sClean := pyStrip s
  let s2 := replaceChar ',' ' ' sClean
  let parts := (pySplitWs s2).filter (fun p => pyStrip p ≠ "")
  decide (parts.length ≥ 6) && (parts.take 6).all (fun part => pyIsDigit (lstripZeros (pyStrip part)))

/-- The looks_like counter of the heuristic loop. -/
def countLooks (sample : List String) : Nat :=
  sample.foldl (fun acc s => if looksLikeRow s then acc + 1 else acc) 0

/-- sample = df[col].dropna().astype(str).head(20).tolist(). -/
def heurSample (vals : List Cell) : List String :=
  ((vals.filter (fun c => !c.isNa)).map cellStr).take 20

/-- The heuristic scan: first column (in table order) whose sample passes
the looks_like >= max(3, len(sample)//4) test; the loop breaks there. -/
def findMatchCol : List (String × List Cell) → Option String
  | [] => none
  | p :: rest =>
    let sample := heurSample p.2
    if countLooks sample ≥ max 3 (sample.length / 4) then some p.1
    else findMatchCol rest

/-- Follows the spec's wording for the heuristic row test: normalize commas
and whitespace runs to single spaces, split, and ask for at least 6 tokens
whose first 6 are numeric-like after stripping leading zeros. Stated
independently of the loop in the source, for comparison with it. -/
def looksSpecRow (s : String) : Bool :=
  let parts := pySplitWs (replaceChar ',' ' ' (pyStrip s))
  decide (parts.length ≥ 6) && (parts.take 6).all (fun p => pyIsDigit (lstripZeros p))

/-- Follows the spec's wording for a qualifying column: at least
max(3, sample_size/4) of the up-to-20 sampled non-missing values pass the
row test; stated with countP instead of the source's counter loop. -/
def qualifiesSpecCol (vals : List Cell) : Bool :=
  decide ((heurSample vals).countP looksSpecRow ≥ max 3 ((heurSample vals).length / 4))

/-- match_col after Case B and the heuristic fallback. -/
def matchColFull (t : Table) : Option String :=
  match aliasMatch t with
  | some c => some c
  | none => findMatchCol t.cols

/-- s = df[match_col].astype(str).str.replace(',',' ').str.replace(r'\s+',' ').str.strip()
applied to one cell. -/
def normVal (c : Cell) : String :=
  pyStrip (collapseWs (replaceChar ',' ' ' (cellStr c)))

/-- Width of the expanded split frame: pandas pads every row to the maximal
token count, so shape[1] is the maximum. -/
def splitWidth (rows : List (List String)) : Nat :=
  rows.foldr (fun r acc => max r.length acc) 0

/-- One token column after iloc[:, :6]: astype(str) renders the None padding
as "None"; then lstrip('0'), the empty string becomes "0", and astype(int). -/
def tokToInt (o : Option String) : Except SchemaError Int :=
  let s0 := match o with
    | none => "None"
    | some tok => tok
  let s1 := lstripZeros s0
  let s2 := if s1 = "" then "0" else s1
  match parseIntPy s2 with
  | some n => .ok n
  | none => .error (.badInt s2)

/-- Convert token column j of the expanded frame to integer cells. -/
def convTokCol (rows : List (List String)) (j : Nat) : Except SchemaError (List Cell) := do
  let ns ← rows.mapM (fun r => tokToInt (r.get? j))
  pure (ns.map Cell.int)

/-- df[name] = vs: replace an existing column in place, else append. -/
def setOrAppend (t : Table) (name : String) (vs : List Cell) : Table :=
  if (t.colNames).contains name then
    ⟨t.cols.map (fun p => if p.1 = name then (p.1, vs) else p)⟩
  else
    ⟨t.cols ++ [(name, vs)]⟩

/-- df_copy[['white1',...,'powerball']] = parts: assign the six standardized
columns in order. -/
def attachCols (t : Table) (cols6 : List (String × List Cell)) : Table :=
  cols6.foldl (fun acc p => setOrAppend acc p.1 p.2) t

/-- The token rows the split path settles on: a plain space split of the
normalized strings, retried with hyphens as separators when the frame is
narrower than 6 columns. The retry splits on single spaces without
re-collapsing, as in the source. -/
def chosenRows (ss : List String) : List (List String) :=
  let rows1 := ss.map splitOnSpace
  if splitWidth rows1 < 6 then ss.map (fun s => splitOnSpace (replaceChar '-' ' ' s))
  else rows1

/-- The split path of the normalizer, after match_col has been found. -/
def splitPath (t : Table) (mc : String) : Except SchemaError Table :=
  let origVals := ((t.cols.lookup mc).getD [])
  let ss := origVals.map normVal
  let rows := chosenRows ss
  if splitWidth rows < 6 then
    .error (.cannotSplit mc ((origVals.map cellStr).take 5))
  else do
    let c1 ← convTokCol rows 0
    let c2 ← convTokCol rows 1
    let c3 ← convTokCol rows 2
    let c4 ← convTokCol rows 3
    let c5 ← convTokCol rows 4
    let c6 ← convTokCol rows 5
    pure (attachCols t [("white1", c1), ("white2", c2), ("white3", c3),
                        ("white4", c4), ("white5", c5), ("powerball", c6)])

/-- _detect_and_split_winning_numbers from the source: Case A (canonical
columns), else alias/heuristic column detection followed by the split path,
else a ValueError listing the available columns. -/
def detect_and_split_winning_numbers (t : Table) : Except SchemaError Table :=
  if caseACond t then convertReq requiredCols (caseARename t)
  else
    match matchColFull t with
    | none => .error (.noColumn t.colNames)
    | some mc => splitPath t mc

/-- preprocess just forwards to the detector, re-raising its errors. -/
def preprocess (t : Table) : Except SchemaError Table :=
  detect_and_split_winning_numbers t

/-! ## analyze: frequencies and the weighted sampler -/

/-- The six integer columns analyze reads from the preprocessed frame. -/
structure DrawTable where
  w1 : List Int
  w2 : List Int
  w3 : List Int
  w4 : List Int
  w5 : List Int
  pb : List Int
deriving DecidableEq, Repr

/-- Read one canonical column of a normalized table as integers
(df[name].astype(int) inside analyze). -/
def readIntCol (t : Table) (name : String) : Except SchemaError (List Int) :=
  ((t.cols.lookup name).getD []).mapM astypeIntCell

/-- Extract the DrawTable that analyze works on. -/
def toDrawTable (t : Table) : Except SchemaError DrawTable := do
  let a ← readIntCol t "white1"
  let b ← readIntCol t "white2"
  let c ← readIntCol t "white3"
  let d ← readIntCol t "white4"
  let e ← readIntCol t "white5"
  let p ← readIntCol t "powerball"
  pure ⟨a, b, c, d, e, p⟩

/-- whites = pd.concat([df['white1'],...,df['white5']], ignore_index=True). -/
def whitesConcat (d : DrawTable) : List Int :=
  d.w1 ++ d.w2 ++ d.w3 ++ d.w4 ++ d.w5

/-- white_freq = whites.value_counts().reindex(range(1,70), fill_value=0)
.sort_index(): occurrence count of n for each n in 1..69. -/
def whiteFreq (d : DrawTable) (n : Int) : Nat := (whitesConcat d).count n

/-- red_freq over 1..26. -/
def redFreq (d : DrawTable) (n : Int) : Nat := d.pb.count n

/-- The white frequency series as the 69 counts in index order. -/
def whiteFreqList (d : DrawTable) : List Nat :=
  (List.range 69).map (fun (i : Nat) => whiteFreq d ((i : Int) + 1))

/-- The red frequency series as the 26 counts in index order. -/
def redFreqList (d : DrawTable) : List Nat :=
  (List.range 26).map (fun (i : Nat) => redFreq d ((i : Int) + 1))

/-- white_pool = list(range(1,70)). -/
def whitePool : List Int := (List.range 69).map (fun (i : Nat) => (i : Int) + 1)

/-- red_pool = list(range(1,27)). -/
def redPool : List Int := (List.range 26).map (fun (i : Nat) => (i : Int) + 1)

/-- white_weights = (observed_white + 1).tolist(). -/
def whiteWeights (d : DrawTable) : List Nat :=
  (whiteFreqList d).map (fun c => c + 1)

/-- red_weights = (observed_red + 1).tolist(). -/
def redWeights (d : DrawTable) : List Nat :=
  (redFreqList d).map (fun c => c + 1)

/-- The index random.choices selects when the scaled random draw lands at
position r of the cumulative weights: the first index whose cumulative
weight exceeds r. Faithful for any r < total weight. -/
def selectIdx : List Nat → Nat → Nat
  | [], _ => 0
  | w :: ws, r => if r < w then 0 else 1 + selectIdx ws (r - w)

/-- random.choices(pool, weights=ws, k=rs.length) driven by the explicit
random stream rs (one cumulative position per draw). -/
def choicesW (pool : List Int) (ws : List Nat) (rs : List Nat) : List Int :=
  rs.map (fun r => pool.getD (selectIdx ws r) 0)

/-- Insert into a sorted list, keeping order. -/
def insertSorted (x : Int) : List Int → List Int
  | [] => [x]
  | y :: ys => if x ≤ y then x :: y :: ys else y :: insertSorted x ys

/-- Python sorted() on a list of integers. Any correct sort of an integer
list produces this list, so the model is exact for sorted(pick). -/
def pySorted (l : List Int) : List Int := l.foldr insertSorted []

/-- One weighted ticket. -/
structure Ticket where
  whites : List Int
  powerball : Int
deriving DecidableEq, Repr

/-- One loop body of the sampler:
pick = sorted(random.choices(white_pool, weights=white_weights, k=5));
pb = random.choices(red_pool, weights=red_weights, k=1)[0]. -/
def makeTicket (ww rw : List Nat) (rs : List Nat) (rpb : Nat) : Ticket :=
  { whites := pySorted (choicesW whitePool ww (rs.take 5)),
    powerball := (choicesW redPool rw [rpb]).headD 0 }

/-- The weighted_tickets list built by analyze: ten tickets, each from its
own random draws. -/
def weightedTickets (d : DrawTable) (rnd : Nat → List Nat × Nat) : List Ticket :=
  (List.range 10).map (fun i => makeTicket (whiteWeights d) (redWeights d) (rnd i).1 (rnd i).2)

/-- generate_weighted_picks_from_df(df, n=5): preprocess, analyze, return
results['weighted_tickets']. The count parameter n is accepted but never
read by the body, exactly as in the source. -/
def generate_weighted_picks_from_df (t : Table) (n : Nat)
    (rnd : Nat → List Nat × Nat) : Except SchemaError (List Ticket) := do
  let t2 ← preprocess t
  let d ← toDrawTable t2
  pure (weightedTickets d rnd)

/-! ## Concrete fixtures used by the theorems and witnesses -/

/-- A one-row table with a space-separated winning-numbers column. -/
def T4space : Table := ⟨[("winning numbers", [Cell.str "04 08 32 40 48 20"])]⟩

/-- The comma-separated variant of T4space. -/
def T4comma : Table := ⟨[("winning numbers", [Cell.str "04,08,32,40,48,20"])]⟩

/-- The all-zero-token edge case in the first field. -/
def T4zero : Table := ⟨[("winning numbers", [Cell.str "00 08 32 40 48 20"])]⟩

/-- A table with no recognizable draw-number encoding. -/
def Tnone : Table :=
  ⟨[("date", [Cell.str "2020-01-01", Cell.str "2020-01-08"]),
    ("notes", [Cell.str "hello", Cell.str "world"])]⟩

/-- A one-draw table already analyzed (whites 4 8 15 16 23, special 7). -/
def d0 : DrawTable := ⟨[4], [8], [15], [16], [23], [7]⟩

/-- A fixed random stream: every cumulative position is 0, a draw the
random source can always produce. -/
def rnd0 : Nat → List Nat × Nat := fun _ => ([0, 0, 0, 0, 0], 0)

/-- A table with decoy columns around one plausible six-token column. -/
def Tdec : Table :=
  ⟨[("date", [Cell.str "2020-01-01", Cell.str "2020-01-08",
              Cell.str "2020-01-15", Cell.str "2020-01-22"]),
    ("winning", [Cell.str "01 02 03 04 05 06", Cell.str "07 08 09 10 11 12",
                 Cell.str "13 14 15 16 17 18", Cell.str "19 20 21 22 23 24"]),
    ("notes", [Cell.str "a", Cell.str "b", Cell.str "c", Cell.str "d"])]⟩

/-- A table already in canonical six-column form (mixed case, int cells). -/
def Tcanon : Table :=
  ⟨[("Date", [Cell.str "2020-01-01"]),
    ("White1", [Cell.int 4]), ("White2", [Cell.int 8]),
    ("White3", [Cell.int 15]), ("White4", [Cell.int 16]),
    ("White5", [Cell.int 23]), ("Powerball", [Cell.int 7])]⟩

/-- A delimited table whose second row cannot be parsed into 6 integer
tokens (only three tokens, padded with None by the expanded split). -/
def Tbadrow : Table :=
  ⟨[("winning numbers", [Cell.str "04 08 32 40 48 20", Cell.str "1 2 3"])]⟩

/-- The normalized form of T4space. -/
def T4res : Table :=
  ⟨[("winning numbers", [Cell.str "04 08 32 40 48 20"]),
    ("white1", [Cell.int 4]), ("white2", [Cell.int 8]),
    ("white3", [Cell.int 32]), ("white4", [Cell.int 40]),
    ("white5", [Cell.int 48]), ("powerball", [Cell.int 20])]⟩

/-- Cumulative effect on one column entry of the six astype(int)
assignments for the names in the list: label kept, length kept, untouched
when the label is outside the list, integer-typed when inside. -/
def ReqRel (names : List String) (p q : String × List Cell) : Prop :=
  q.1 = p.1 ∧ q.2.length = p.2.length ∧ (p.1 ∉ names → q = p) ∧
    (p.1 ∈ names → ∀ c ∈ q.2, c.isInt = true)

/-! ## General lemmas about counting -/

/-- Sums of pointwise sums split. -/
theorem sum_map_add {α : Type} (l : List α) (f g : α → Nat) :
    (l.map (fun x => f x + g x)).sum = (l.map f).sum + (l.map g).sum := by
  induction l with
  | nil => simp
  | cons a tl ih => simp [ih]; omega

/-- The indicator of a fixed value in [1, m] sums to 1 over the range. -/
theorem sum_indicator (m : Nat) (a : Int) (h1 : 1 ≤ a) (h2 : a ≤ (m : Int)) :
    ((List.range m).map (fun (i : Nat) => if ((i : Int) + 1) = a then 1 else 0)).sum = 1 := by
  induction m with
  | zero => omega
  | succ m ih =>
    rw [List.range_succ, List.map_append, List.sum_append]
    by_cases hc : a ≤ (m : Int)
    · rw [ih hc]
      have hne : ¬ ((m : Int) + 1 = a) := by omega
      simp [hne]
    · have ha : a = (m : Int) + 1 := by omega
      subst ha
      have hz : ((List.range m).map (fun (i : Nat) => if ((i : Int) + 1) = (m : Int) + 1 then 1 else 0)).sum = 0 := by
        apply List.sum_eq_zero
        intro x hx
        rcases List.mem_map.mp hx with ⟨i, hi, hxi⟩
        have hne : (i : Int) + 1 ≠ (m : Int) + 1 := by
          have := List.mem_range.mp hi
          omega
        simpa [hne] using hxi.symm
      rw [hz]
      simp

/-- Counting every value of [1, m] across a list whose members all lie in
[1, m] recovers the length of the list. -/
theorem sum_range_count (m : Nat) (l : List Int)
    (h : ∀ x ∈ l, 1 ≤ x ∧ x ≤ (m : Int)) :
    ((List.range m).map (fun (i : Nat) => l.count ((i : Int) + 1))).sum = l.length := by
  induction l with
  | nil => simp
  | cons a tl ih =>
    have ha := h a (List.mem_cons_self a tl)
    have htl : ∀ x ∈ tl, 1 ≤ x ∧ x ≤ (m : Int) := fun x hx => h x (List.mem_cons_of_mem a hx)
    have hcnt : ∀ i : Nat, (a :: tl).count ((i : Int) + 1) =
        tl.count ((i : Int) + 1) + (if ((i : Int) + 1) = a then 1 else 0) := by
      intro i
      rw [List.count_cons]
      by_cases hia : ((i : Int) + 1) = a
      · simp [hia]
      · simp [hia, Ne.symm hia]
    calc ((List.range m).map (fun (i : Nat) => (a :: tl).count ((i : Int) + 1))).sum
        = ((List.range m).map (fun (i : Nat) =>
            tl.count ((i : Int) + 1) + (if ((i : Int) + 1) = a then 1 else 0))).sum := by
          congr 1
          exact List.map_congr_left (fun i _ => hcnt i)
      _ = ((List.range m).map (fun (i : Nat) => tl.count ((i : Int) + 1))).sum +
          ((List.range m).map (fun (i : Nat) => if ((i : Int) + 1) = a then 1 else 0)).sum := by
          rw [sum_map_add]
      _ = tl.length + 1 := by rw [ih htl, sum_indicator m a ha.1 ha.2]
      _ = (a :: tl).length := by simp

deriving instance DecidableEq for Except

/-- Destructuring a successful Except bind. -/
theorem bindOk {ε α β : Type} (x : Except ε α) (f : α → Except ε β) (b : β)
    (h : (x >>= f) = .ok b) : ∃ a, x = .ok a ∧ f a = .ok b := by
  cases x with
  | error e =>
    rw [show (Except.error e >>= f) = (Except.error e : Except ε β) from rfl] at h
    exact absurd h (by simp)
  | ok a =>
    refine ⟨a, rfl, ?_⟩
    rw [show (Except.ok a >>= f) = f a from rfl] at h
    exact h

/-! ## Claim theorems -/

/-- C1: the weighted sampler draws white numbers with random.choices, i.e.
with replacement: there is a legal random outcome (every cumulative
position strictly below the total weight, weights all positive, hence
non-degenerate) under which a ticket repeats the same white number five
times. This refutes the guarantee of 5 pairwise-distinct whites and
confirms the claim describes intended, not actual, behavior. -/
theorem c1_duplicate_whites_possible :
    0 < (whiteWeights d0).sum ∧
    (∀ r ∈ ([0, 0, 0, 0, 0] : List Nat), r < (whiteWeights d0).sum) ∧
    makeTicket (whiteWeights d0) (redWeights d0) [0, 0, 0, 0, 0] 0 =
      { whites := [1, 1, 1, 1, 1], powerball := 1 } ∧
    ¬ (makeTicket (whiteWeights d0) (redWeights d0) [0, 0, 0, 0, 0] 0).whites.Nodup := by
  decide

/-- C2: generate_weighted_picks_from_df never reads its count parameter n;
whenever it succeeds it returns the ten tickets hard-coded in analyze,
regardless of the requested n. -/
theorem c2_count_parameter_ignored (t : Table) (n : Nat) (rnd : Nat → List Nat × Nat)
    (ts : List Ticket) (h : generate_weighted_picks_from_df t n rnd = .ok ts) :
    ts.length = 10 := by
  unfold generate_weighted_picks_from_df at h
  rcases bindOk _ _ _ h with ⟨t2, hp, h2⟩
  rcases bindOk _ _ _ h2 with ⟨d, hd, h3⟩
  have hts : weightedTickets d rnd = ts := by
    rw [show (pure (weightedTickets d rnd) : Except SchemaError (List Ticket)) =
      Except.ok (weightedTickets d rnd) from rfl] at h3
    exact Except.ok.inj h3
  rw [← hts]
  simp [weightedTickets]

/-- Witness for C2: on a concrete parseable table with requested count 5,
the call succeeds and yields 10 tickets, not 5. -/
theorem c2_count_parameter_ignored_witness :
    (generate_weighted_picks_from_df T4space 5 rnd0).toOption.map List.length = some 10 ∧
    (10 : Nat) ≠ 5 := by
  refine ⟨?_, by decide⟩
  cases hE : generate_weighted_picks_from_df T4space 5 rnd0 with
  | error e =>
    have hok : (generate_weighted_picks_from_df T4space 5 rnd0).toOption.isSome = true := by decide
    rw [hE] at hok
    simp [Except.toOption] at hok
  | ok ts =>
    have hlen := c2_count_parameter_ignored T4space 5 rnd0 ts hE
    simp [Except.toOption, hlen]

/-- C3: for a non-empty table of in-range draws, the white frequency series
has one entry per integer in [1,69], the entry for k is the occurrence
count of k, and the entries sum to 5 times the number of draws; the special
series covers [1,26] and sums to the number of draws. -/
theorem c3_frequency_tables (d : DrawTable) (n : Nat)
    (h1 : d.w1.length = n) (h2 : d.w2.length = n) (h3 : d.w3.length = n)
    (h4 : d.w4.length = n) (h5 : d.w5.length = n) (h6 : d.pb.length = n)
    (_hn : 0 < n)
    (hw : ∀ x ∈ whitesConcat d, 1 ≤ x ∧ x ≤ 69)
    (hp : ∀ x ∈ d.pb, 1 ≤ x ∧ x ≤ 26) :
    (whiteFreqList d).length = 69 ∧
    (∀ k : Nat, k < 69 → (whiteFreqList d).getD k 0 = whiteFreq d ((k : Int) + 1)) ∧
    (whiteFreqList d).sum = 5 * n ∧
    (redFreqList d).length = 26 ∧
    (∀ k : Nat, k < 26 → (redFreqList d).getD k 0 = redFreq d ((k : Int) + 1)) ∧
    (redFreqList d).sum = n := by
  refine ⟨by simp [whiteFreqList], ?_, ?_, by simp [redFreqList], ?_, ?_⟩
  · intro k hk
    simp [whiteFreqList, List.getD_eq_getElem?_getD, List.getElem?_map, List.getElem?_range, hk]
  · have := sum_range_count 69 (whitesConcat d)
      (fun x hx => ⟨(hw x hx).1, by exact_mod_cast (hw x hx).2⟩)
    have hlen : (whitesConcat d).length = 5 * n := by
      simp [whitesConcat, h1, h2, h3, h4, h5]
      omega
    rw [whiteFreqList]
    unfold whiteFreq
    rw [this, hlen]
  · intro k hk
    simp [redFreqList, List.getD_eq_getElem?_getD, List.getElem?_map, List.getElem?_range, hk]
  · have := sum_range_count 26 d.pb
      (fun x hx => ⟨(hp x hx).1, by exact_mod_cast (hp x hx).2⟩)
    rw [redFreqList]
    unfold redFreq
    rw [this, h6]

/-- Witness for C3 on the concrete one-draw table d0. -/
theorem c3_frequency_tables_witness :
    (whiteFreqList d0).sum = 5 * 1 ∧ (redFreqList d0).sum = 1 ∧
    (whiteFreqList d0).getD 3 0 = 1 := by
  have h := c3_frequency_tables d0 1 rfl rfl rfl rfl rfl rfl (by decide)
    (by decide) (by decide)
  exact ⟨h.2.2.1, h.2.2.2.2.2, by rw [h.2.1 3 (by omega)]; decide⟩

/-- C4: a detected delimited column of the form "04 08 32 40 48 20" is
normalized to whites [4,8,32,40,48] (tokens 1-5 in order) and special 20;
a field of all zeros parses to 0; and the comma-separated variant produces
the same six canonical columns as the space-separated one. -/
theorem c4_delimited_normalization :
    detect_and_split_winning_numbers T4space =
      .ok ⟨[("winning numbers", [Cell.str "04 08 32 40 48 20"]),
            ("white1", [Cell.int 4]), ("white2", [Cell.int 8]),
            ("white3", [Cell.int 32]), ("white4", [Cell.int 40]),
            ("white5", [Cell.int 48]), ("powerball", [Cell.int 20])]⟩ ∧
    (requiredCols.all (fun name =>
      ((detect_and_split_winning_numbers T4comma).toOption.bind (fun t => t.cols.lookup name)) ==
      ((detect_and_split_winning_numbers T4space).toOption.bind (fun t => t.cols.lookup name))) = true) ∧
    tokToInt (some "00") = .ok 0 ∧
    detect_and_split_winning_numbers T4zero =
      .ok ⟨[("winning numbers", [Cell.str "00 08 32 40 48 20"]),
            ("white1", [Cell.int 0]), ("white2", [Cell.int 8]),
            ("white3", [Cell.int 32]), ("white4", [Cell.int 40]),
            ("white5", [Cell.int 48]), ("powerball", [Cell.int 20])]⟩ := by
  decide

/-- C8: when no canonical six-column layout, no alias and no heuristically
qualifying column exists, the normalizer fails with the error that lists
the available column names. -/
theorem c8_missing_schema_error (t : Table)
    (hA : caseACond t = false)
    (hB : aliasMatch t = none)
    (hC : findMatchCol t.cols = none) :
    detect_and_split_winning_numbers t = .error (.noColumn t.colNames) := by
  unfold detect_and_split_winning_numbers
  rw [hA]
  simp only [Bool.false_eq_true, if_false]
  unfold matchColFull
  rw [hB, hC]

/-- Witness for C8 on a concrete table with only date and notes columns. -/
theorem c8_missing_schema_error_witness :
    detect_and_split_winning_numbers Tnone = .error (.noColumn ["date", "notes"]) :=
  c8_missing_schema_error Tnone (by decide) (by decide) (by decide)

/-! ## The heuristic loop agrees with its specification-level description -/

/-- Pieces produced by the whitespace split contain no whitespace. -/
theorem splitWsAux_no_ws (cs : List Char) :
    ∀ l ∈ splitWsAux cs, ∀ c ∈ l, c.isWhitespace = false := by
  induction cs with
  | nil =>
    intro l hl c hc
    simp only [splitWsAux, List.mem_singleton] at hl
    subst hl
    simp at hc
  | cons a cs ih =>
    intro l hl c hc
    unfold splitWsAux at hl
    cases hsp : splitWsAux cs with
    | nil =>
      rw [hsp] at hl
      simp only [List.mem_singleton] at hl
      subst hl
      simp at hc
    | cons p ps =>
      rw [hsp] at hl
      dsimp only at hl
      by_cases hws : a.isWhitespace
      · rw [if_pos hws] at hl
        rw [List.mem_cons] at hl
        rcases hl with hl | hl
        · subst hl; simp at hc
        · exact ih l (by rw [hsp]; exact hl) c hc
      · rw [if_neg hws] at hl
        rw [List.mem_cons] at hl
        rcases hl with hl | hl
        · subst hl
          rw [List.mem_cons] at hc
          rcases hc with hc | hc
          · subst hc
            exact Bool.eq_false_iff.mpr hws
          · exact ih p (by rw [hsp]; exact List.mem_cons_self p ps) c hc
        · exact ih l (by rw [hsp]; exact List.mem_cons_of_mem p hl) c hc

/-- Dropping leading whitespace from an all-non-whitespace list is a no-op. -/
theorem dropWhileWs_eq_self (l : List Char) (h : ∀ c ∈ l, c.isWhitespace = false) :
    l.dropWhile Char.isWhitespace = l := by
  cases l with
  | nil => rfl
  | cons a l =>
    rw [List.dropWhile_cons]
    simp [h a (List.mem_cons_self a l)]

/-- Stripping a string with no whitespace characters is a no-op. -/
theorem pyStrip_eq_self (s : String) (h : ∀ c ∈ s.toList, c.isWhitespace = false) :
    pyStrip s = s := by
  unfold pyStrip
  rw [dropWhileWs_eq_self s.toList h]
  rw [dropWhileWs_eq_self s.toList.reverse (fun c hc => h c (List.mem_reverse.mp hc))]
  rw [List.reverse_reverse]
  cases s with
  | mk d => rfl

/-- Every piece of the python whitespace split is nonempty and
whitespace-free. -/
theorem pySplitWs_pieces (s : String) :
    ∀ p ∈ pySplitWs s, p ≠ "" ∧ ∀ c ∈ p.toList, c.isWhitespace = false := by
  intro p hp
  unfold pySplitWs at hp
  rcases List.mem_filter.mp hp with ⟨hmem, hne⟩
  rcases List.mem_map.mp hmem with ⟨l, hl, hpl⟩
  refine ⟨by simpa using hne, ?_⟩
  intro c hc
  apply splitWsAux_no_ws s.toList l hl c
  rw [← hpl] at hc
  exact hc

/-- Boolean all respects pointwise equality on members. -/
theorem all_congr_mem {α : Type} (l : List α) (f g : α → Bool)
    (h : ∀ x ∈ l, f x = g x) : l.all f = l.all g := by
  induction l with
  | nil => rfl
  | cons a tl ih =>
    simp only [List.all_cons]
    rw [h a (List.mem_cons_self a tl), ih (fun x hx => h x (List.mem_cons_of_mem a hx))]

/-- The looks_like row test of the source equals its spec-level
description: the inner strip of each token and the nonempty filter are
no-ops because split pieces are nonempty and whitespace-free. -/
theorem looksLikeRow_eq_spec (s : String) : looksLikeRow s = looksSpecRow s := by
  simp only [looksLikeRow, looksSpecRow]
  have hall : ∀ p ∈ pySplitWs (replaceChar ',' ' ' (pyStrip s)), pyStrip p = p ∧ p ≠ "" := by
    intro p hp
    rcases pySplitWs_pieces _ p hp with ⟨hne, hws⟩
    exact ⟨pyStrip_eq_self p hws, hne⟩
  have hfilt : (pySplitWs (replaceChar ',' ' ' (pyStrip s))).filter
      (fun p => decide (pyStrip p ≠ "")) = pySplitWs (replaceChar ',' ' ' (pyStrip s)) := by
    apply List.filter_eq_self.mpr
    intro p hp
    rcases hall p hp with ⟨hstrip, hne⟩
    simp [hstrip, hne]
  rw [hfilt]
  congr 1
  apply all_congr_mem
  intro p hp
  rcases hall p (List.take_subset 6 _ hp) with ⟨hstrip, _⟩
  rw [hstrip]

/-- The loop counter of the heuristic equals countP. -/
theorem countLooks_eq_countP (l : List String) :
    countLooks l = l.countP looksLikeRow := by
  unfold countLooks
  suffices h : ∀ acc : Nat, l.foldl (fun acc s => if looksLikeRow s then acc + 1 else acc) acc =
      acc + l.countP looksLikeRow by
    simpa using h 0
  induction l with
  | nil => intro acc; simp
  | cons a tl ih =>
    intro acc
    rw [List.foldl_cons, List.countP_cons]
    by_cases ha : looksLikeRow a
    · rw [if_pos ha, ih (acc + 1)]
      simp [ha]
      omega
    · rw [if_neg ha, ih acc]
      simp [ha]

/-- The break-on-first-hit scan of the source selects exactly the first
column satisfying the spec-level qualification predicate. -/
theorem findMatchCol_eq_find (cols : List (String × List Cell)) :
    findMatchCol cols = (cols.find? (fun p => qualifiesSpecCol p.2)).map Prod.fst := by
  induction cols with
  | nil => rfl
  | cons p rest ih =>
    have hfun : looksLikeRow = looksSpecRow := funext looksLikeRow_eq_spec
    have hcnt : countLooks (heurSample p.2) = (heurSample p.2).countP looksSpecRow := by
      rw [countLooks_eq_countP, hfun]
    unfold findMatchCol
    by_cases hq : countLooks (heurSample p.2) ≥ max 3 ((heurSample p.2).length / 4)
    · rw [if_pos hq, List.find?_cons_of_pos]
      · rfl
      · simp only [qualifiesSpecCol]
        rw [← hcnt]
        exact decide_eq_true hq
    · rw [if_neg hq, List.find?_cons_of_neg, ih]
      simp only [qualifiesSpecCol]
      rw [← hcnt]
      simpa using hq

/-- C6: with no canonical columns and no alias hit, the normalizer runs the
heuristic fallback: a column qualifies exactly when at least
max(3, sample_size/4) of its up-to-20 sampled non-missing values split
(commas and whitespace runs normalized to single spaces) into at least 6
all-numeric-like tokens (leading zeros allowed, e.g. "04"); the first such
column in order is used for splitting and every other column is ignored. -/
theorem c6_heuristic_selects_first_qualifying (t : Table)
    (hA : caseACond t = false) (hB : aliasMatch t = none) :
    (detect_and_split_winning_numbers t =
      match (t.cols.find? (fun p => qualifiesSpecCol p.2)).map Prod.fst with
      | none => .error (.noColumn t.colNames)
      | some mc => splitPath t mc) ∧
    (∀ s, looksLikeRow s = looksSpecRow s) ∧
    pyIsDigit (lstripZeros "04") = true := by
  refine ⟨?_, looksLikeRow_eq_spec, by decide⟩
  unfold detect_and_split_winning_numbers
  rw [hA]
  simp only [Bool.false_eq_true, if_false]
  unfold matchColFull
  rw [hB, findMatchCol_eq_find]

/-- Witness for C6: on the decoy table the plausible middle column wins. -/
theorem c6_heuristic_selects_first_qualifying_witness :
    detect_and_split_winning_numbers Tdec = splitPath Tdec "winning" := by
  have h := (c6_heuristic_selects_first_qualifying Tdec (by decide) (by decide)).1
  rw [h]
  have hfind : (Tdec.cols.find? (fun p => qualifiesSpecCol p.2)).map Prod.fst = some "winning" := by
    decide
  rw [hfind]

/-! ## The canonical-columns path is identity up to renaming and coercion -/

/-- With pairwise-distinct lowercased names, filtering for one lowercase
name yields exactly the column carrying it. -/
theorem filter_lower_unique (names : List String) (hnd : (names.map lowerStr).Nodup)
    (x : String) (hx : x ∈ names) :
    names.filter (fun c => lowerStr c = lowerStr x) = [x] := by
  induction names with
  | nil => cases hx
  | cons a rest ih =>
    rw [List.map_cons, List.nodup_cons] at hnd
    rcases hnd with ⟨hna, hnd⟩
    rw [List.mem_cons] at hx
    rcases hx with hx | hx
    · subst hx
      rw [List.filter_cons, if_pos (by simp)]
      have hnil : rest.filter (fun c => lowerStr c = lowerStr x) = [] := by
        rw [List.filter_eq_nil_iff]
        intro c hc
        simp only [decide_eq_true_eq]
        intro he
        exact hna (he ▸ List.mem_map_of_mem lowerStr hc)
      rw [hnil]
    · have hne : lowerStr a ≠ lowerStr x := by
        intro he
        exact hna (he ▸ List.mem_map_of_mem lowerStr hx)
      rw [List.filter_cons, if_neg (by simp [hne])]
      exact ih hnd hx

/-- astype(int) over a column of integer cells succeeds and recovers the
column exactly. -/
theorem mapM_astype_int (vs : List Cell) (h : ∀ c ∈ vs, c.isInt = true) :
    ∃ ns, vs.mapM astypeIntCell = .ok ns ∧ ns.map Cell.int = vs := by
  induction vs with
  | nil => exact ⟨[], by rw [List.mapM_nil]; rfl, rfl⟩
  | cons c tl ih =>
    have hc := h c (List.mem_cons_self c tl)
    cases c with
    | int k =>
      rcases ih (fun x hx => h x (List.mem_cons_of_mem _ hx)) with ⟨ns, hok, hmap⟩
      refine ⟨k :: ns, ?_, by simp [hmap]⟩
      rw [List.mapM_cons]
      rw [show astypeIntCell (Cell.int k) = .ok k from rfl]
      rw [show ((Except.ok k : Except SchemaError Int) >>= fun b =>
            (tl.mapM astypeIntCell) >>= fun bs => pure (b :: bs)) =
          ((tl.mapM astypeIntCell) >>= fun bs => pure (k :: bs)) from rfl]
      rw [hok]
      rfl
    | str s => simp [Cell.isInt] at hc
    | na => simp [Cell.isInt] at hc

/-- A column entry whose cells are already integers passes the astype(int)
step unchanged. -/
theorem convertColEntry_id (name : String) (p : String × List Cell)
    (h : p.1 = name → ∀ c ∈ p.2, c.isInt = true) :
    convertColEntry name p = .ok p := by
  unfold convertColEntry
  by_cases hpn : p.1 = name
  · rw [if_pos hpn]
    rcases mapM_astype_int p.2 (h hpn) with ⟨ns, hok, hmap⟩
    rw [show ((p.2.mapM astypeIntCell) >>= fun ns =>
          (pure (p.1, ns.map Cell.int) : Except SchemaError (String × List Cell))) =
        ((p.2.mapM astypeIntCell) >>= fun ns => Except.ok (p.1, ns.map Cell.int)) from rfl]
    rw [hok]
    rw [show ((Except.ok ns : Except SchemaError (List Int)) >>= fun ns =>
          Except.ok (p.1, ns.map Cell.int)) = Except.ok (p.1, ns.map Cell.int) from rfl]
    rw [hmap]
  · rw [if_neg hpn]
    rfl

/-- astype(int) over a table whose matching columns hold integer cells is
the identity. -/
theorem convertColInt_id (name : String) (t : Table)
    (h : ∀ p ∈ t.cols, p.1 = name → ∀ c ∈ p.2, c.isInt = true) :
    convertColInt name t = .ok t := by
  unfold convertColInt
  have hmm : ∀ l : List (String × List Cell), (∀ p ∈ l, p.1 = name → ∀ c ∈ p.2, c.isInt = true) →
      l.mapM (convertColEntry name) = .ok l := by
    intro l
    induction l with
    | nil => intro _; rw [List.mapM_nil]; rfl
    | cons p tl ih =>
      intro hl
      rw [List.mapM_cons, convertColEntry_id name p (hl p (List.mem_cons_self p tl))]
      rw [show ((Except.ok p : Except SchemaError (String × List Cell)) >>= fun b =>
            (tl.mapM (convertColEntry name)) >>= fun bs => pure (b :: bs)) =
          ((tl.mapM (convertColEntry name)) >>= fun bs => pure (p :: bs)) from rfl]
      rw [ih (fun q hq => hl q (List.mem_cons_of_mem p hq))]
      rfl
  rw [show ((t.cols.mapM (convertColEntry name)) >>= fun cols =>
        (pure (Table.mk cols) : Except SchemaError Table)) =
      ((t.cols.mapM (convertColEntry name)) >>= fun cols => Except.ok (Table.mk cols)) from rfl]
  rw [hmm t.cols h]
  rfl

/-- The six astype(int) assignments on an integer-valued table do nothing. -/
theorem convertReq_id (names : List String) (t : Table)
    (h : ∀ n ∈ names, ∀ p ∈ t.cols, p.1 = n → ∀ c ∈ p.2, c.isInt = true) :
    convertReq names t = .ok t := by
  induction names with
  | nil => rfl
  | cons n ns ih =>
    unfold convertReq
    rw [convertColInt_id n t (h n (List.mem_cons_self n ns))]
    rw [show ((Except.ok t : Except SchemaError Table) >>= fun t2 => convertReq ns t2) =
        convertReq ns t from rfl]
    exact ih (fun m hm => h m (List.mem_cons_of_mem n hm))

/-- Every required name is its own lowercasing. -/
theorem lower_fixes_required : ∀ n ∈ requiredCols, lowerStr n = n := by decide

/-- Under unique lowercased names, the Case A rename is the plain
lowercase-if-required rename. -/
theorem caseARename_eq (t : Table) (huniq : (colsLower t).Nodup) :
    caseARename t = ⟨t.cols.map (fun p =>
      (if requiredCols.contains (lowerStr p.1) then lowerStr p.1 else p.1, p.2))⟩ := by
  unfold caseARename
  congr 1
  apply List.map_congr_left
  intro p hp
  have hcm : colMapLookup t (lowerStr p.1) = some p.1 := by
    unfold colMapLookup
    have hx : p.1 ∈ t.colNames := List.mem_map_of_mem Prod.fst hp
    rw [filter_lower_unique t.colNames huniq p.1 hx]
    rfl
  by_cases hreq : requiredCols.contains (lowerStr p.1)
  · rw [if_pos ⟨hreq, hcm⟩, if_pos hreq]
  · rw [if_neg (fun hand => hreq hand.1), if_neg hreq]

/-- C5: on a table already exposing the six canonical columns
case-insensitively, with integer values there, normalization returns the
input table unchanged except that the canonical column labels are
lowercased: every value of every column round-trips identically. -/
theorem c5_canonical_roundtrip (t : Table)
    (hA : caseACond t = true)
    (huniq : (colsLower t).Nodup)
    (hint : ∀ p ∈ t.cols, requiredCols.contains (lowerStr p.1) = true →
      ∀ c ∈ p.2, c.isInt = true) :
    detect_and_split_winning_numbers t =
      .ok ⟨t.cols.map (fun p =>
        (if requiredCols.contains (lowerStr p.1) then lowerStr p.1 else p.1, p.2))⟩ := by
  unfold detect_and_split_winning_numbers
  rw [hA]
  simp only [if_true]
  rw [caseARename_eq t huniq]
  apply convertReq_id
  intro n hn p hp hpn
  rcases List.mem_map.mp hp with ⟨q, hq, hqp⟩
  by_cases hb : requiredCols.contains (lowerStr q.1) = true
  · have hp2 : p.2 = q.2 := by rw [← hqp]
    rw [hp2]
    exact hint q hq hb
  · have hp1 : p.1 = q.1 := by
      rw [← hqp, if_neg hb]
    have hlow : lowerStr q.1 = n := by
      rw [← hp1, hpn]
      exact lower_fixes_required n hn
    have : requiredCols.contains (lowerStr q.1) = true := by
      rw [hlow]
      exact List.elem_eq_true_of_mem hn
    exact absurd this hb

/-- Witness for C5 on the mixed-case canonical table. -/
theorem c5_canonical_roundtrip_witness :
    detect_and_split_winning_numbers Tcanon =
      .ok ⟨[("Date", [Cell.str "2020-01-01"]),
            ("white1", [Cell.int 4]), ("white2", [Cell.int 8]),
            ("white3", [Cell.int 15]), ("white4", [Cell.int 16]),
            ("white5", [Cell.int 23]), ("powerball", [Cell.int 7])]⟩ := by
  rw [c5_canonical_roundtrip Tcanon (by decide) (by decide) (by decide)]
  rfl

/-! ## Success and failure analysis of the conversion steps -/

/-- A successful monadic map certifies every element pointwise. -/
theorem mapM_ok_forall2 {ε α β : Type} (f : α → Except ε β) :
    ∀ (l : List α) (l2 : List β), l.mapM f = .ok l2 →
      List.Forall₂ (fun a b => f a = .ok b) l l2 := by
  intro l
  induction l with
  | nil =>
    intro l2 h
    rw [List.mapM_nil] at h
    have h2 : ([] : List β) = l2 := Except.ok.inj h
    rw [← h2]
    exact List.Forall₂.nil
  | cons a tl ih =>
    intro l2 h
    rw [List.mapM_cons] at h
    rcases bindOk _ _ _ h with ⟨b, hb, h2⟩
    rcases bindOk _ _ _ h2 with ⟨bs, hbs, h3⟩
    have h4 : b :: bs = l2 := Except.ok.inj h3
    rw [← h4]
    exact List.Forall₂.cons hb (ih bs hbs)

/-- A left member of a pointwise relation has a right partner. -/
theorem forall2_mem_left {α β : Type} {R : α → β → Prop} :
    ∀ {l : List α} {l2 : List β}, List.Forall₂ R l l2 → ∀ a ∈ l, ∃ b ∈ l2, R a b := by
  intro l l2 h
  induction h with
  | nil => intro a ha; cases ha
  | cons hR _ ih =>
    intro a ha
    rw [List.mem_cons] at ha
    rcases ha with ha | ha
    · subst ha
      exact ⟨_, List.mem_cons_self _ _, hR⟩
    · rcases ih a ha with ⟨b, hb, hab⟩
      exact ⟨b, List.mem_cons_of_mem _ hb, hab⟩

/-- A right member of a pointwise relation has a left partner. -/
theorem forall2_mem_right {α β : Type} {R : α → β → Prop} :
    ∀ {l : List α} {l2 : List β}, List.Forall₂ R l l2 → ∀ b ∈ l2, ∃ a ∈ l, R a b := by
  intro l l2 h
  induction h with
  | nil => intro b hb; cases hb
  | cons hR _ ih =>
    intro b hb
    rw [List.mem_cons] at hb
    rcases hb with hb | hb
    · subst hb
      exact ⟨_, List.mem_cons_self _ _, hR⟩
    · rcases ih b hb with ⟨a, ha, hab⟩
      exact ⟨a, List.mem_cons_of_mem _ ha, hab⟩

/-- Pointwise relations compose. -/
theorem forall2_comp {α β γ : Type} {R : α → β → Prop} {S : β → γ → Prop} :
    ∀ {l1 : List α} {l2 : List β} {l3 : List γ},
      List.Forall₂ R l1 l2 → List.Forall₂ S l2 l3 →
      List.Forall₂ (fun a c => ∃ b, R a b ∧ S b c) l1 l3 := by
  intro l1 l2 l3 h1
  induction h1 generalizing l3 with
  | nil =>
    intro h2
    cases h2
    exact List.Forall₂.nil
  | cons hR _ ih =>
    intro h2
    cases h2 with
    | cons hS htl => exact List.Forall₂.cons ⟨_, hR, hS⟩ (ih htl)

/-- A failing element makes the whole monadic map fail. -/
theorem mapM_error_of_bad {ε α β : Type} (f : α → Except ε β) :
    ∀ (l : List α) (a : α), a ∈ l → isOkE (f a) = false → isOkE (l.mapM f) = false := by
  intro l
  induction l with
  | nil => intro a ha; cases ha
  | cons x tl ih =>
    intro a ha hbad
    rw [List.mem_cons] at ha
    rw [List.mapM_cons]
    cases hfx : f x with
    | error e =>
      rw [show ((Except.error e : Except ε β) >>= fun b =>
            (tl.mapM f) >>= fun bs => pure (b :: bs)) = Except.error e from rfl]
      rfl
    | ok b =>
      rw [show ((Except.ok b : Except ε β) >>= fun b =>
            (tl.mapM f) >>= fun bs => pure (b :: bs)) =
          ((tl.mapM f) >>= fun bs => pure (b :: bs)) from rfl]
      rcases ha with ha | ha
      · subst ha
        rw [hfx] at hbad
        cases hbad
      · cases hmt : tl.mapM f with
        | error e => rfl
        | ok bs =>
          have := ih a ha hbad
          rw [hmt] at this
          cases this

/-- Characterization of a successful per-entry astype(int) step. -/
theorem convertColEntry_ok (name : String) (p q : String × List Cell)
    (h : convertColEntry name p = .ok q) :
    q.1 = p.1 ∧ q.2.length = p.2.length ∧ (p.1 ≠ name → q = p) ∧
      (p.1 = name → ∀ c ∈ q.2, c.isInt = true) := by
  unfold convertColEntry at h
  by_cases hpn : p.1 = name
  · rw [if_pos hpn] at h
    rcases bindOk _ _ _ h with ⟨ns, hns, h2⟩
    have hq : (p.1, ns.map Cell.int) = q := Except.ok.inj h2
    rw [← hq]
    refine ⟨rfl, ?_, fun hne => absurd hpn hne, fun _ c hc => ?_⟩
    · rw [List.length_map, ← (mapM_ok_forall2 _ _ _ hns).length_eq]
    · rcases List.mem_map.mp hc with ⟨k, _, hck⟩
      rw [← hck]
      rfl
  · rw [if_neg hpn] at h
    have hq : p = q := Except.ok.inj h
    rw [← hq]
    exact ⟨rfl, rfl, fun _ => rfl, fun he => absurd he hpn⟩

/-- Characterization of a successful astype(int) over one label. -/
theorem convertColInt_ok (name : String) (t t2 : Table)
    (h : convertColInt name t = .ok t2) :
    List.Forall₂ (fun p q => q.1 = p.1 ∧ q.2.length = p.2.length ∧ (p.1 ≠ name → q = p) ∧
      (p.1 = name → ∀ c ∈ q.2, c.isInt = true)) t.cols t2.cols := by
  unfold convertColInt at h
  rcases bindOk _ _ _ h with ⟨cols, hcols, h2⟩
  have h3 : Table.mk cols = t2 := Except.ok.inj h2
  rw [← h3]
  exact (mapM_ok_forall2 _ t.cols cols hcols).imp
    (fun a b hab => convertColEntry_ok name a b hab)

/-- Characterization of the successful chain of astype(int) assignments. -/
theorem convertReq_ok (names : List String) :
    ∀ (t t2 : Table), convertReq names t = .ok t2 →
      List.Forall₂ (ReqRel names) t.cols t2.cols := by
  induction names with
  | nil =>
    intro t t2 h
    have h2 : t = t2 := Except.ok.inj h
    rw [← h2]
    apply List.forall₂_same.mpr
    intro p _
    exact ⟨rfl, rfl, fun _ => rfl, fun hmem => absurd hmem (List.not_mem_nil p.1)⟩
  | cons n ns ih =>
    intro t t2 h
    unfold convertReq at h
    rcases bindOk _ _ _ h with ⟨t1, h1, h2⟩
    have hF := forall2_comp (convertColInt_ok n t t1 h1) (ih t1 t2 h2)
    apply hF.imp
    intro p q hpq
    rcases hpq with ⟨m, ⟨hm1, hm2, hm3, hm4⟩, ⟨hq1, hq2, hq3, hq4⟩⟩
    refine ⟨by rw [hq1, hm1], by rw [hq2, hm2], ?_, ?_⟩
    · intro hnot
      rw [List.mem_cons] at hnot
      push_neg at hnot
      have hmp : m = p := hm3 hnot.1
      have hqm : q = m := by
        apply hq3
        rw [hm1]
        exact hnot.2
      rw [hqm, hmp]
    · intro hmem
      rw [List.mem_cons] at hmem
      rcases hmem with hmem | hmem
      · by_cases hns2 : p.1 ∈ ns
        · exact hq4 (by rw [hm1]; exact hns2)
        · have hqm : q = m := hq3 (by rw [hm1]; exact hns2)
          rw [hqm]
          exact hm4 hmem
      · exact hq4 (by rw [hm1]; exact hmem)

/-- A nonempty list has a last element, and it is a member. -/
theorem getLast?_mem : ∀ (l : List String), l ≠ [] → ∃ x, l.getLast? = some x ∧ x ∈ l := by
  intro l
  induction l with
  | nil => intro h; exact absurd rfl h
  | cons a rest ih =>
    intro _
    cases hr : rest with
    | nil => exact ⟨a, rfl, by simp⟩
    | cons b rest2 =>
      rcases ih (by rw [hr]; exact List.cons_ne_nil b rest2) with ⟨x, hx, hxm⟩
      rw [hr] at hx hxm
      exact ⟨x, by rw [List.getLast?_cons_cons]; exact hx, List.mem_cons_of_mem a hxm⟩

/-- A key present among the labels is found by lookup, at a member entry. -/
theorem lookup_mem (l : List (String × List Cell)) (key : String)
    (hk : key ∈ l.map Prod.fst) :
    ∃ vs, l.lookup key = some vs ∧ (key, vs) ∈ l := by
  induction l with
  | nil => cases hk
  | cons p rest ih =>
    obtain ⟨k, v⟩ := p
    by_cases hpk : key = k
    · refine ⟨v, ?_, ?_⟩
      · simp [List.lookup, hpk]
      · rw [hpk]
        exact List.mem_cons_self (k, v) rest
    · rw [List.map_cons, List.mem_cons] at hk
      rcases hk with hk | hk
      · exact absurd hk hpk
      · rcases ih hk with ⟨vs, hvs, hmem⟩
        refine ⟨vs, ?_, List.mem_cons_of_mem (k, v) hmem⟩
        have hbeq : (key == k) = false := by simp [hpk]
        simp [List.lookup, hbeq]
        exact hvs

/-- Tables whose columns have pointwise equal lengths have the same row
count. -/
theorem nRows_eq_of_forall2 (t1 t2 : Table)
    (h : List.Forall₂ (fun p q => q.2.length = p.2.length) t1.cols t2.cols) :
    t2.nRows = t1.nRows := by
  rcases t1 with ⟨c1⟩
  rcases t2 with ⟨c2⟩
  unfold Table.nRows
  dsimp only at h
  cases h with
  | nil => rfl
  | cons hpq _ => exact hpq

/-- Under Case A each required name labels a column of the renamed table. -/
theorem caseA_col_exists (t : Table) (hA : caseACond t = true) :
    ∀ name ∈ requiredCols, ∃ p ∈ (caseARename t).cols, p.1 = name ∧
      ∃ p0 ∈ t.cols, p.2 = p0.2 := by
  intro name hn
  have hmem : name ∈ colsLower t := by
    have := List.all_eq_true.mp hA name hn
    simpa using this
  rcases List.mem_map.mp hmem with ⟨c0, _, _⟩
  have hfil : t.colNames.filter (fun c => lowerStr c = name) ≠ [] := by
    rcases List.mem_map.mp hmem with ⟨c1, hc1, hlc1⟩
    intro hnil
    have : c1 ∈ t.colNames.filter (fun c => lowerStr c = name) :=
      List.mem_filter.mpr ⟨hc1, by simp [hlc1]⟩
    rw [hnil] at this
    cases this
  rcases getLast?_mem _ hfil with ⟨cstar, hlast, hmemf⟩
  have hcm : colMapLookup t name = some cstar := hlast
  rcases List.mem_filter.mp hmemf with ⟨hcn, hlow⟩
  have hlowc : lowerStr cstar = name := by simpa using hlow
  rcases List.mem_map.mp hcn with ⟨p0, hp0, hp0n⟩
  refine ⟨(if requiredCols.contains (lowerStr p0.1) ∧
      colMapLookup t (lowerStr p0.1) = some p0.1 then lowerStr p0.1 else p0.1, p0.2),
    List.mem_map_of_mem _ hp0, ?_, p0, hp0, rfl⟩
  have hcond : requiredCols.contains (lowerStr p0.1) ∧
      colMapLookup t (lowerStr p0.1) = some p0.1 := by
    constructor
    · rw [hp0n, hlowc]
      exact List.elem_eq_true_of_mem hn
    · rw [hp0n, hlowc, hcm]
  rw [if_pos hcond]
  rw [hp0n, hlowc]

/-- All facts about a successful Case A normalization needed by the
atomicity and frame claims. -/
theorem caseA_path_facts (t t2 : Table) (hWF : t.WF) (hA : caseACond t = true)
    (h : convertReq requiredCols (caseARename t) = .ok t2) :
    t2.nRows = t.nRows ∧ t2.WF ∧
    (∀ name ∈ requiredCols, ∃ q ∈ t2.cols, q.1 = name ∧ q.2.length = t.nRows ∧
      ∀ c ∈ q.2, c.isInt = true) ∧
    (∀ p ∈ t.cols, requiredCols.contains (lowerStr p.1) = false → p ∈ t2.cols) := by
  have hF := convertReq_ok requiredCols (caseARename t) t2 h
  have hrenWF : ∀ p ∈ (caseARename t).cols, p.2.length = t.nRows := by
    intro p hp
    rcases List.mem_map.mp hp with ⟨p0, hp0, hpp⟩
    rw [← hpp]
    exact hWF p0 hp0
  have hnr_ren : (caseARename t).nRows = t.nRows := by
    unfold Table.nRows caseARename
    cases t.cols with
    | nil => rfl
    | cons p rest => rfl
  have hnr : t2.nRows = t.nRows := by
    rw [← hnr_ren]
    exact nRows_eq_of_forall2 _ _ (hF.imp (fun p q hpq => hpq.2.1))
  refine ⟨hnr, ?_, ?_, ?_⟩
  · intro q hq
    rcases forall2_mem_right hF q hq with ⟨p, hp, rel⟩
    rw [hnr, rel.2.1]
    exact hrenWF p hp
  · intro name hn
    rcases caseA_col_exists t hA name hn with ⟨p, hp, hpname, p0, hp0, hp2⟩
    rcases forall2_mem_left hF p hp with ⟨q, hq, rel⟩
    refine ⟨q, hq, by rw [rel.1, hpname], ?_, ?_⟩
    · rw [rel.2.1, hp2]
      exact hWF p0 hp0
    · exact rel.2.2.2 (by rw [hpname]; exact hn)
  · intro p hp hlow
    have hself : (if requiredCols.contains (lowerStr p.1) ∧
        colMapLookup t (lowerStr p.1) = some p.1 then lowerStr p.1 else p.1, p.2) = p := by
      rw [if_neg (fun hand => by rw [hlow] at hand; exact Bool.false_ne_true hand.1)]
    have hpren : p ∈ (caseARename t).cols := by
      unfold caseARename
      exact List.mem_map.mpr ⟨p, hp, hself⟩
    rcases forall2_mem_left hF p hpren with ⟨q, hq, rel⟩
    have hnreq : p.1 ∉ requiredCols := by
      intro hin
      have : requiredCols.contains (lowerStr p.1) = true := by
        rw [lower_fixes_required p.1 hin]
        exact List.elem_eq_true_of_mem hin
      rw [hlow] at this
      exact Bool.false_ne_true this
    have : q = p := rel.2.2.1 hnreq
    rw [← this]
    exact hq

/-! ## The split path: attachment and conversion of the six token columns -/

/-- Columns with a different label survive a column assignment. -/
theorem setOrAppend_mem_of_ne (t : Table) (name : String) (vs : List Cell)
    (p : String × List Cell) (hp : p ∈ t.cols) (hne : p.1 ≠ name) :
    p ∈ (setOrAppend t name vs).cols := by
  unfold setOrAppend
  by_cases hc : (t.colNames).contains name
  · rw [if_pos hc]
    apply List.mem_map.mpr
    refine ⟨p, hp, ?_⟩
    show (if p.1 = name then (p.1, vs) else p) = p
    rw [if_neg hne]
  · rw [if_neg hc]
    exact List.mem_append_left _ hp

/-- A column assignment makes the assigned column present. -/
theorem setOrAppend_self_mem (t : Table) (name : String) (vs : List Cell) :
    (name, vs) ∈ (setOrAppend t name vs).cols := by
  unfold setOrAppend
  by_cases hc : (t.colNames).contains name
  · rw [if_pos hc]
    have hmemn : name ∈ t.colNames := by simpa using hc
    rcases List.mem_map.mp hmemn with ⟨p, hp, hpn⟩
    apply List.mem_map.mpr
    refine ⟨p, hp, ?_⟩
    rw [if_pos hpn, hpn]
  · rw [if_neg hc]
    exact List.mem_append_right _ (List.mem_singleton.mpr rfl)

/-- Members of a table after one column assignment. -/
theorem setOrAppend_members (t : Table) (name : String) (vs : List Cell)
    (q : String × List Cell) (hq : q ∈ (setOrAppend t name vs).cols) :
    (q ∈ t.cols ∧ q.1 ≠ name) ∨ q = (name, vs) := by
  unfold setOrAppend at hq
  by_cases hc : (t.colNames).contains name
  · rw [if_pos hc] at hq
    rcases List.mem_map.mp hq with ⟨p, hp, hpq⟩
    by_cases hpn : p.1 = name
    · right
      rw [← hpq, if_pos hpn, hpn]
    · left
      rw [← hpq, if_neg hpn]
      exact ⟨hp, hpn⟩
  · rw [if_neg hc] at hq
    rcases List.mem_append.mp hq with hq | hq
    · left
      refine ⟨hq, ?_⟩
      intro he
      apply hc
      have : name ∈ t.colNames := by
        rw [← he]
        exact List.mem_map_of_mem Prod.fst hq
      simpa using this
    · right
      simpa using hq

/-- A column assignment keeps the row count when the new values have it,
and keeps the table nonempty. -/
theorem setOrAppend_nRows (t : Table) (name : String) (vs : List Cell)
    (hne : t.cols ≠ []) (hlen : vs.length = t.nRows) :
    (setOrAppend t name vs).nRows = t.nRows ∧ (setOrAppend t name vs).cols ≠ [] := by
  unfold setOrAppend
  rcases t with ⟨cols⟩
  cases cols with
  | nil => exact absurd rfl hne
  | cons p rest =>
    by_cases hc : ((Table.mk (p :: rest)).colNames).contains name
    · rw [if_pos hc]
      unfold Table.nRows at hlen
      refine ⟨?_, by simp⟩
      unfold Table.nRows
      dsimp only [List.map_cons]
      by_cases hpn : p.1 = name
      · rw [if_pos hpn]
        exact hlen
      · rw [if_neg hpn]
    · rw [if_neg hc]
      exact ⟨rfl, by simp⟩

/-- Columns whose labels avoid all assigned labels survive the whole
six-column attachment. -/
theorem attach_preserve (cols6 : List (String × List Cell)) :
    ∀ (u : Table) (p : String × List Cell), p ∈ u.cols →
      p.1 ∉ cols6.map Prod.fst → p ∈ (attachCols u cols6).cols := by
  induction cols6 with
  | nil => intro u p hp _; exact hp
  | cons c rest ih =>
    intro u p hp hn
    rw [List.map_cons, List.mem_cons] at hn
    push_neg at hn
    exact ih (setOrAppend u c.1 c.2) p
      (setOrAppend_mem_of_ne u c.1 c.2 p hp hn.1) hn.2

/-- With pairwise-distinct labels, every assigned column is present after
the attachment. -/
theorem attach_mem_selfs (cols6 : List (String × List Cell)) :
    ∀ (u : Table), (cols6.map Prod.fst).Nodup →
      ∀ p ∈ cols6, p ∈ (attachCols u cols6).cols := by
  induction cols6 with
  | nil => intro u _ p hp; cases hp
  | cons c rest ih =>
    intro u hnd p hp
    rw [List.map_cons, List.nodup_cons] at hnd
    rw [List.mem_cons] at hp
    rcases hp with hp | hp
    · subst hp
      exact attach_preserve rest (setOrAppend u p.1 p.2) p
        (setOrAppend_self_mem u p.1 p.2) hnd.1
    · exact ih (setOrAppend u c.1 c.2) hnd.2 p hp

/-- Members of the attached table come from the base table (with labels
outside the assignment) or from the assignment itself. -/
theorem attach_members (cols6 : List (String × List Cell)) :
    ∀ (u : Table) (q : String × List Cell), q ∈ (attachCols u cols6).cols →
      (q ∈ u.cols ∧ q.1 ∉ cols6.map Prod.fst) ∨ q ∈ cols6 := by
  induction cols6 with
  | nil =>
    intro u q hq
    left
    exact ⟨hq, by simp⟩
  | cons c rest ih =>
    intro u q hq
    rcases ih (setOrAppend u c.1 c.2) q hq with ⟨hmem, hnin⟩ | hmem
    · rcases setOrAppend_members u c.1 c.2 q hmem with ⟨hq3, hne⟩ | hq3
      · left
        refine ⟨hq3, ?_⟩
        rw [List.map_cons, List.mem_cons]
        push_neg
        exact ⟨hne, hnin⟩
      · right
        rw [hq3]
        exact List.mem_cons_self _ _
    · right
      exact List.mem_cons_of_mem c hmem

/-- Attaching columns of the right length keeps the row count. -/
theorem attach_nRows (cols6 : List (String × List Cell)) :
    ∀ (u : Table), u.cols ≠ [] → (∀ p ∈ cols6, p.2.length = u.nRows) →
      (attachCols u cols6).nRows = u.nRows ∧ (attachCols u cols6).cols ≠ [] := by
  induction cols6 with
  | nil => intro u hne _; exact ⟨rfl, hne⟩
  | cons c rest ih =>
    intro u hne hlen
    have hs := setOrAppend_nRows u c.1 c.2 hne (hlen c (List.mem_cons_self c rest))
    have hrest := ih (setOrAppend u c.1 c.2) hs.2
      (fun p hp => by rw [hs.1]; exact hlen p (List.mem_cons_of_mem c hp))
    exact ⟨hrest.1.trans hs.1, hrest.2⟩

/-- Both split modes keep one token row per input row. -/
theorem chosenRows_length (ss : List String) : (chosenRows ss).length = ss.length := by
  simp only [chosenRows]
  by_cases hw : splitWidth (ss.map splitOnSpace) < 6
  · rw [if_pos hw, List.length_map]
  · rw [if_neg hw, List.length_map]

/-- A successful token-column conversion yields one integer cell per row. -/
theorem convTokCol_ok (rows : List (List String)) (j : Nat) (ci : List Cell)
    (h : convTokCol rows j = .ok ci) :
    ci.length = rows.length ∧ ∀ c ∈ ci, c.isInt = true := by
  unfold convTokCol at h
  rcases bindOk _ _ _ h with ⟨ns, hns, h2⟩
  have h3 : ns.map Cell.int = ci := Except.ok.inj h2
  rw [← h3]
  constructor
  · rw [List.length_map, ← (mapM_ok_forall2 _ _ _ hns).length_eq]
  · intro c hc
    rcases List.mem_map.mp hc with ⟨k, _, hck⟩
    rw [← hck]
    rfl

/-- Structure of a successful split path: the result is the base table with
the six integer token columns attached, each of full height, and every
token column of the selected frame converted successfully. -/
theorem splitPath_ok (t : Table) (mc : String) (t2 : Table)
    (h : splitPath t mc = .ok t2) :
    ∃ cs : List (String × List Cell),
      t2 = attachCols t cs ∧ cs.map Prod.fst = requiredCols ∧
      (∀ p ∈ cs, p.2.length = ((t.cols.lookup mc).getD []).length ∧
        ∀ c ∈ p.2, c.isInt = true) ∧
      (∀ j, j < 6 → ∃ cj, convTokCol
        (chosenRows (((t.cols.lookup mc).getD []).map normVal)) j = .ok cj) := by
  simp only [splitPath] at h
  by_cases hw : splitWidth (chosenRows (((t.cols.lookup mc).getD []).map normVal)) < 6
  · rw [if_pos hw] at h
    cases h
  · rw [if_neg hw] at h
    rcases bindOk _ _ _ h with ⟨c1, hc1, h1⟩
    rcases bindOk _ _ _ h1 with ⟨c2, hc2, h2⟩
    rcases bindOk _ _ _ h2 with ⟨c3, hc3, h3⟩
    rcases bindOk _ _ _ h3 with ⟨c4, hc4, h4⟩
    rcases bindOk _ _ _ h4 with ⟨c5, hc5, h5⟩
    rcases bindOk _ _ _ h5 with ⟨c6, hc6, h6⟩
    have ht2 : attachCols t [("white1", c1), ("white2", c2), ("white3", c3),
        ("white4", c4), ("white5", c5), ("powerball", c6)] = t2 := Except.ok.inj h6
    refine ⟨[("white1", c1), ("white2", c2), ("white3", c3),
        ("white4", c4), ("white5", c5), ("powerball", c6)], ht2.symm, rfl, ?_, ?_⟩
    · have hrl : (chosenRows (((t.cols.lookup mc).getD []).map normVal)).length =
          ((t.cols.lookup mc).getD []).length := by
        rw [chosenRows_length, List.length_map]
      intro p hp
      have hall : ∀ c ∈ [("white1", c1), ("white2", c2), ("white3", c3),
          ("white4", c4), ("white5", c5), ("powerball", c6)],
          c.2.length = ((t.cols.lookup mc).getD []).length ∧
            ∀ x ∈ c.2, x.isInt = true := by
        intro c hcm
        simp only [List.mem_cons, List.mem_singleton, List.not_mem_nil, or_false] at hcm
        rcases hcm with hcm | hcm | hcm | hcm | hcm | hcm
        all_goals subst hcm
        · exact ⟨(convTokCol_ok _ _ _ hc1).1.trans hrl, (convTokCol_ok _ _ _ hc1).2⟩
        · exact ⟨(convTokCol_ok _ _ _ hc2).1.trans hrl, (convTokCol_ok _ _ _ hc2).2⟩
        · exact ⟨(convTokCol_ok _ _ _ hc3).1.trans hrl, (convTokCol_ok _ _ _ hc3).2⟩
        · exact ⟨(convTokCol_ok _ _ _ hc4).1.trans hrl, (convTokCol_ok _ _ _ hc4).2⟩
        · exact ⟨(convTokCol_ok _ _ _ hc5).1.trans hrl, (convTokCol_ok _ _ _ hc5).2⟩
        · exact ⟨(convTokCol_ok _ _ _ hc6).1.trans hrl, (convTokCol_ok _ _ _ hc6).2⟩
      exact hall p hp
    · intro j hj
      interval_cases j
      · exact ⟨c1, hc1⟩
      · exact ⟨c2, hc2⟩
      · exact ⟨c3, hc3⟩
      · exact ⟨c4, hc4⟩
      · exact ⟨c5, hc5⟩
      · exact ⟨c6, hc6⟩

/-- A detected match column is a real column of the table. -/
theorem matchColFull_mem (t : Table) (mc : String) (h : matchColFull t = some mc) :
    mc ∈ t.colNames := by
  unfold matchColFull at h
  cases ha : aliasMatch t with
  | some c =>
    rw [ha] at h
    have hcm : c = mc := Option.some.inj h
    subst hcm
    unfold aliasMatch at ha
    cases hf : singleColCandidates.find? (fun cand => (colsLower t).contains cand) with
    | none => rw [hf] at ha; cases ha
    | some cand =>
      rw [hf] at ha
      dsimp only at ha
      unfold colMapLookup at ha
      by_cases hnil : t.colNames.filter (fun c2 => lowerStr c2 = cand) = []
      · rw [hnil] at ha
        cases ha
      · rcases getLast?_mem _ hnil with ⟨x, hx, hxm⟩
        rw [hx] at ha
        have hxc : x = c := Option.some.inj ha
        rw [← hxc]
        exact List.mem_of_mem_filter hxm
  | none =>
    rw [ha] at h
    have hgen : ∀ cols : List (String × List Cell), findMatchCol cols = some mc →
        mc ∈ cols.map Prod.fst := by
      intro cols
      induction cols with
      | nil => intro hh; cases hh
      | cons p rest ih =>
        intro hh
        unfold findMatchCol at hh
        by_cases hq : countLooks (heurSample p.2) ≥ max 3 ((heurSample p.2).length / 4)
        · rw [if_pos hq] at hh
          have := Option.some.inj hh
          rw [List.map_cons, ← this]
          exact List.mem_cons_self _ _
        · rw [if_neg hq] at hh
          rw [List.map_cons]
          exact List.mem_cons_of_mem _ (ih hh)
    exact hgen t.cols h

/-- The two ways a normalization can succeed. -/
theorem detect_ok_cases (t t2 : Table) (h : detect_and_split_winning_numbers t = .ok t2) :
    (caseACond t = true ∧ convertReq requiredCols (caseARename t) = .ok t2) ∨
    (caseACond t = false ∧ ∃ mc, matchColFull t = some mc ∧ splitPath t mc = .ok t2) := by
  unfold detect_and_split_winning_numbers at h
  by_cases hA : caseACond t
  · rw [if_pos hA] at h
    exact Or.inl ⟨hA, h⟩
  · rw [if_neg hA] at h
    refine Or.inr ⟨by simpa using hA, ?_⟩
    cases hm : matchColFull t with
    | none => rw [hm] at h; cases h
    | some mc => rw [hm] at h; exact ⟨mc, rfl, h⟩

/-- All facts about a successful split-path normalization needed by the
atomicity and frame claims. -/
theorem split_path_facts (t : Table) (mc : String) (t2 : Table) (hWF : t.WF)
    (hmc : mc ∈ t.colNames) (h : splitPath t mc = .ok t2) :
    t2.nRows = t.nRows ∧ t2.WF ∧
    (∀ name ∈ requiredCols, ∃ q ∈ t2.cols, q.1 = name ∧ q.2.length = t.nRows ∧
      ∀ c ∈ q.2, c.isInt = true) ∧
    (∀ p ∈ t.cols, p.1 ∉ requiredCols → p ∈ t2.cols) := by
  rcases splitPath_ok t mc t2 h with ⟨cs, ht2, hnames, hprops, _⟩
  rcases lookup_mem t.cols mc hmc with ⟨vs, hvs, hvmem⟩
  have hOlen : ((t.cols.lookup mc).getD []).length = t.nRows := by
    rw [hvs]
    exact hWF (mc, vs) hvmem
  have hcs_len : ∀ p ∈ cs, p.2.length = t.nRows := fun p hp => by
    rw [(hprops p hp).1, hOlen]
  have htne : t.cols ≠ [] := by
    intro hnil
    rw [hnil] at hvmem
    cases hvmem
  have hATT := attach_nRows cs t htne hcs_len
  have hnd : (cs.map Prod.fst).Nodup := by
    rw [hnames]
    decide
  subst ht2
  refine ⟨hATT.1, ?_, ?_, ?_⟩
  · intro q hq
    rcases attach_members cs t q hq with ⟨hmem, _⟩ | hmem
    · rw [hATT.1]
      exact hWF q hmem
    · rw [hATT.1]
      exact hcs_len q hmem
  · intro name hn
    have hmemn : name ∈ cs.map Prod.fst := by
      rw [hnames]
      exact hn
    rcases List.mem_map.mp hmemn with ⟨p, hp, hpn⟩
    exact ⟨p, attach_mem_selfs cs t hnd p hp, hpn, hcs_len p hp, (hprops p hp).2⟩
  · intro p hp hnin
    apply attach_preserve cs t p hp
    rw [hnames]
    exact hnin

set_option maxHeartbeats 800000 in
/-- C7: normalization is atomic. On success every row of the returned
table carries all six canonical fields white1..white5, powerball as
integer cells (one per input row); and whenever some row of the selected
delimited column cannot be converted into 6 integer tokens, the whole call
returns an error, never a partially normalized table. -/
theorem c7_atomic_normalization :
    (∀ t t2 : Table, t.WF → detect_and_split_winning_numbers t = .ok t2 →
       t2.nRows = t.nRows ∧ t2.WF ∧
       ∀ name ∈ requiredCols, ∃ q ∈ t2.cols, q.1 = name ∧ q.2.length = t.nRows ∧
         ∀ c ∈ q.2, c.isInt = true) ∧
    (∀ (t : Table) (mc : String), caseACond t = false → matchColFull t = some mc →
       (∃ r ∈ chosenRows (((t.cols.lookup mc).getD []).map normVal),
          ∃ j, j < 6 ∧ isOkE (tokToInt (r.get? j)) = false) →
       isOkE (detect_and_split_winning_numbers t) = false) := by
  constructor
  · intro t t2 hWF h
    rcases detect_ok_cases t t2 h with ⟨hA, hc⟩ | ⟨hA, mc, hm, hs⟩
    · have hF := caseA_path_facts t t2 hWF hA hc
      exact ⟨hF.1, hF.2.1, hF.2.2.1⟩
    · have hF := split_path_facts t mc t2 hWF (matchColFull_mem t mc hm) hs
      exact ⟨hF.1, hF.2.1, hF.2.2.1⟩
  · intro t mc hA hm hbad
    have hdet : detect_and_split_winning_numbers t = splitPath t mc := by
      unfold detect_and_split_winning_numbers
      rw [hA]
      simp only [Bool.false_eq_true, if_false]
      rw [hm]
    rw [hdet]
    rcases hbad with ⟨r, hr, j, hj, hbadtok⟩
    cases hsp : splitPath t mc with
    | error e => rfl
    | ok t2 =>
      rcases splitPath_ok t mc t2 hsp with ⟨cs, _, _, _, hconv⟩
      rcases hconv j hj with ⟨cj, hcj⟩
      unfold convTokCol at hcj
      rcases bindOk _ _ _ hcj with ⟨ns, hns, _⟩
      have hbadmapM : isOkE ((chosenRows (((t.cols.lookup mc).getD []).map normVal)).mapM
          (fun r2 => tokToInt (r2.get? j))) = false := by
        apply mapM_error_of_bad _ _ r hr
        exact hbadtok
      rw [hns] at hbadmapM
      cases hbadmapM

/-- Witness for C7: the one-good-row table normalizes with all six integer
fields of full height, and the table with one unparseable row fails as a
whole. -/
theorem c7_atomic_normalization_witness :
    (T4res.nRows = T4space.nRows ∧ T4res.WF ∧
      ∀ name ∈ requiredCols, ∃ q ∈ T4res.cols, q.1 = name ∧ q.2.length = T4space.nRows ∧
        ∀ c ∈ q.2, c.isInt = true) ∧
    isOkE (detect_and_split_winning_numbers Tbadrow) = false := by
  constructor
  · exact c7_atomic_normalization.1 T4space T4res (by decide) (by decide)
  · exact c7_atomic_normalization.2 Tbadrow "winning numbers" (by decide) (by decide)
      ⟨["1", "2", "3"], by decide, 3, by decide, by decide⟩

/-- C10: on success the returned table has exactly as many rows as the
input, and every column whose (lowercased) name is not one of the six
canonical ones is kept with its original name and values; in the
delimited path the matched source column itself is kept alongside the six
new integer columns. -/
theorem c10_frame_preservation (t t2 : Table) (hWF : t.WF)
    (hok : detect_and_split_winning_numbers t = .ok t2) :
    t2.nRows = t.nRows ∧ t2.WF ∧
    (∀ p ∈ t.cols, requiredCols.contains (lowerStr p.1) = false → p ∈ t2.cols) ∧
    (∀ mc : String, caseACond t = false → matchColFull t = some mc → mc ∉ requiredCols →
      ∀ p ∈ t.cols, p.1 = mc → p ∈ t2.cols) := by
  rcases detect_ok_cases t t2 hok with ⟨hA, hc⟩ | ⟨hA, mc0, hm, hs⟩
  · have hF := caseA_path_facts t t2 hWF hA hc
    refine ⟨hF.1, hF.2.1, hF.2.2.2, ?_⟩
    intro mc hAf
    rw [hA] at hAf
    cases hAf
  · have hF := split_path_facts t mc0 t2 hWF (matchColFull_mem t mc0 hm) hs
    refine ⟨hF.1, hF.2.1, ?_, ?_⟩
    · intro p hp hlow
      apply hF.2.2.2 p hp
      intro hin
      have hcontra : requiredCols.contains (lowerStr p.1) = true := by
        rw [lower_fixes_required p.1 hin]
        exact List.elem_eq_true_of_mem hin
      rw [hlow] at hcontra
      exact Bool.false_ne_true hcontra
    · intro mc _ _ hnreq p hp hpmc
      apply hF.2.2.2 p hp
      rw [hpmc]
      exact hnreq

/-- Witness for C10: the row count is kept and the matched source column
survives normalization with its original name and string value. -/
theorem c10_frame_preservation_witness :
    T4res.nRows = T4space.nRows ∧
    ("winning numbers", [Cell.str "04 08 32 40 48 20"]) ∈ T4res.cols := by
  have h := c10_frame_preservation T4space T4res (by decide) (by decide)
  refine ⟨h.1, ?_⟩
  exact h.2.2.2 "winning numbers" (by decide) (by decide) (by decide)
    ("winning numbers", [Cell.str "04 08 32 40 48 20"]) (by decide) rfl

end Powerball
